import Mathlib

/-!
# Verification of the sloany helium-line detection engine

A shallow embedding, over `List ℚ`, of the numerical pipeline in
`hefind.py`: smoothing (`smooth_spectrum`), baseline correction
(`baseline`, white top-hat), noise estimation, line-complex detection and
center resolution (`find_lines`, `find_centers`), per-line signal-to-noise
computation, and reference matching with the detection verdict
(`find_helium`).

Real (IEEE double) arithmetic of the source is modelled by exact rational
arithmetic.  Python/numpy slice clamping and `numpy.convolve` in `valid`
mode are modelled faithfully, including the degenerate cases where the
input is shorter than the kernel.  The `while` loops of `find_lines` are
modelled by fuel-indexed structural recursion; the fuel supplied at the
top level (`corrected.length`) always suffices, which the lemmas below
establish.
-/

/-- `numpy.sign` on rationals: `1` for positive, `-1` for negative, `0` for zero. -/
def sign (x : ℚ) : ℚ := if 0 < x then 1 else if x < 0 then -1 else 0

/-- `numpy.diff`: consecutive differences `l[i+1] - l[i]`. -/
def diffs (l : List ℚ) : List ℚ := List.zipWith (fun a b => b - a) l l.tail

/-- `find_centers` (hefind.py lines 81-88): second-derivative zero crossings.
`diff2 = numpy.diff(numpy.sign(numpy.diff(line_complex)))`;
return `numpy.where(diff2 > 0)[0] + 1`. -/
def find_centers (line_complex : List ℚ) : List ℕ :=
  let diff2 := diffs ((diffs line_complex).map sign)
  ((List.range diff2.length).filter (fun j => decide (0 < diff2.getD j 0))).map (fun j => j + 1)

theorem diffs_length (l : List ℚ) : (diffs l).length = l.length - 1 := by
  simp [diffs]

theorem diffs_getD (l : List ℚ) (j : ℕ) (h : j + 1 < l.length) :
    (diffs l).getD j 0 = l.getD (j + 1) 0 - l.getD j 0 := by
  have hlen : j < (diffs l).length := by rw [diffs_length]; omega
  have h1 : j < l.length := by omega
  have h2 : j < l.tail.length := by simp [List.length_tail]; omega
  rw [List.getD_eq_getElem _ _ hlen]
  show (List.zipWith (fun a b => b - a) l l.tail)[j] = _
  rw [List.getElem_zipWith]
  rw [List.getElem_tail]
  rw [List.getD_eq_getElem _ _ h, List.getD_eq_getElem _ _ h1]

theorem mem_find_centers (seg : List ℚ) (i : ℕ) :
    i ∈ find_centers seg ↔
      1 ≤ i ∧ i ≤ seg.length - 2 ∧
        0 < sign (seg.getD (i + 1) 0 - seg.getD i 0)
            - sign (seg.getD i 0 - seg.getD (i - 1) 0) := by
  have hmaplen : ((diffs seg).map sign).length = seg.length - 1 := by
    rw [List.length_map, diffs_length]
  have hd2len : (diffs ((diffs seg).map sign)).length = seg.length - 2 := by
    rw [diffs_length, hmaplen]
    omega
  have hval : ∀ j : ℕ, j < seg.length - 2 →
      (diffs ((diffs seg).map sign)).getD j 0 =
        sign (seg.getD (j + 2) 0 - seg.getD (j + 1) 0)
          - sign (seg.getD (j + 1) 0 - seg.getD j 0) := by
    intro j hj
    rw [diffs_getD _ _ (by omega : j + 1 < ((diffs seg).map sign).length)]
    have hget : ∀ k : ℕ, k < seg.length - 1 →
        ((diffs seg).map sign).getD k 0 = sign (seg.getD (k + 1) 0 - seg.getD k 0) := by
      intro k hk
      have hk1 : k < ((diffs seg).map sign).length := by omega
      have hk2 : k < (diffs seg).length := by rw [diffs_length]; omega
      rw [List.getD_eq_getElem _ _ hk1, List.getElem_map,
        ← List.getD_eq_getElem (diffs seg) 0 hk2, diffs_getD _ _ (by omega)]
    rw [hget j (by omega), hget (j + 1) (by omega)]
  constructor
  · intro hmem
    simp only [find_centers, List.mem_map, List.mem_filter, List.mem_range] at hmem
    obtain ⟨j, ⟨hjlt, hjpos⟩, rfl⟩ := hmem
    rw [hd2len] at hjlt
    rw [hval j hjlt] at hjpos
    have hjpos' := of_decide_eq_true hjpos
    refine ⟨by omega, by omega, ?_⟩
    have : j + 1 + 1 = j + 2 := by omega
    rw [this]
    have : j + 1 - 1 = j := by omega
    rw [this]
    exact hjpos'
  · rintro ⟨h1, h2, h3⟩
    simp only [find_centers, List.mem_map, List.mem_filter, List.mem_range]
    refine ⟨i - 1, ⟨by rw [hd2len]; omega, ?_⟩, by omega⟩
    rw [hval (i - 1) (by omega)]
    apply decide_eq_true
    have e1 : i - 1 + 2 = i + 1 := by omega
    have e2 : i - 1 + 1 = i := by omega
    rw [e1, e2]
    exact h3

theorem find_centers_sorted (seg : List ℚ) : (find_centers seg).Pairwise (· < ·) := by
  show (((List.range (diffs ((diffs seg).map sign)).length).filter
      (fun j => decide (0 < (diffs ((diffs seg).map sign)).getD j 0))).map (fun j => j + 1)).Pairwise (· < ·)
  rw [List.pairwise_map]
  exact ((List.pairwise_lt_range _).filter _).imp (fun h => by omega)

/-- Reflection padding used by `smooth_spectrum` and `find_lines`
(hefind.py lines 103-106 and 173-174):
`concatenate((l[half_width:0:-1], l, l[-2:-half_width-2:-1]))`.
The two slices are modelled with Python's clamping slice semantics:
`l[h:0:-1]` is `l[1:h+1]` reversed, and `l[-2:-h-2:-1]` is the run of
indices from `max(len-h-1, 0)` to `len-2` reversed. -/
def reflectPad (l : List ℚ) (h : ℕ) : List ℚ :=
  ((l.drop 1).take h).reverse ++ l ++
    ((l.take (l.length - 1)).drop (l.length - 1 - h)).reverse

/-- `numpy.convolve(l, numpy.ones(w)/w, 'valid')` in exact arithmetic.
When `w ≤ len(l)` each output sample is the average of `w` consecutive
input samples; numpy also accepts a kernel longer than the input, in which
case the output has length `w - len(l) + 1` and every sample is
`sum(l)/w`. -/
def convValidUniform (l : List ℚ) (w : ℕ) : List ℚ :=
  if w ≤ l.length then
    (List.range (l.length + 1 - w)).map (fun i => ((l.drop i).take w).sum / w)
  else
    List.replicate (w + 1 - l.length) (l.sum / w)

/-- One pass of the smoothing loop (hefind.py lines 172-175): reflect-pad by
`window_width // 2` samples, then `valid`-mode convolution with the uniform
kernel. -/
def smoothPass (l : List ℚ) (window_width : ℕ) : List ℚ :=
  convValidUniform (reflectPad l (window_width / 2)) window_width

/-- `smooth_spectrum` (hefind.py lines 166-176): `passes` iterations of
`smoothPass` (source defaults: `window_width=7`, `passes=3`). -/
def smooth_spectrum : List ℚ → ℕ → ℕ → List ℚ
  | fluxes, _, 0 => fluxes
  | fluxes, w, p + 1 => smooth_spectrum (smoothPass fluxes w) w p

theorem reflectPad_length (l : List ℚ) (h : ℕ) (hl : h + 1 ≤ l.length) :
    (reflectPad l h).length = l.length + 2 * h := by
  simp only [reflectPad, List.length_append, List.length_reverse, List.length_take,
    List.length_drop]
  omega

theorem convValidUniform_length_of_le (l : List ℚ) (w : ℕ) (hw : w ≤ l.length) :
    (convValidUniform l w).length = l.length + 1 - w := by
  simp [convValidUniform, hw]

theorem smoothPass_length (l : List ℚ) (w : ℕ) (hodd : w % 2 = 1) (hwl : w ≤ l.length) :
    (smoothPass l w).length = l.length := by
  have hh : w / 2 + 1 ≤ l.length := by omega
  rw [smoothPass,
    convValidUniform_length_of_le _ _ (by rw [reflectPad_length _ _ hh]; omega),
    reflectPad_length _ _ hh]
  omega

theorem smooth_spectrum_length (w : ℕ) (hodd : w % 2 = 1) :
    ∀ (passes : ℕ) (l : List ℚ), w ≤ l.length →
      (smooth_spectrum l w passes).length = l.length := by
  intro passes
  induction passes with
  | zero => intro l _; rfl
  | succ p ih =>
    intro l hwl
    show (smooth_spectrum (smoothPass l w) w p).length = l.length
    rw [ih _ (by rw [smoothPass_length l w hodd hwl]; exact hwl),
      smoothPass_length l w hodd hwl]

theorem reflectPad_replicate (n h : ℕ) (c : ℚ) (hn : h + 1 ≤ n) :
    reflectPad (List.replicate n c) h = List.replicate (n + 2 * h) c := by
  rw [reflectPad, List.length_replicate, List.drop_replicate, List.take_replicate,
    List.reverse_replicate, List.take_replicate, List.drop_replicate,
    List.reverse_replicate]
  have h1 : min h (n - 1) = h := by omega
  have h2 : min (n - 1) n = n - 1 := by omega
  rw [h1, h2, ← List.replicate_add, ← List.replicate_add]
  congr 1
  omega

theorem convValidUniform_replicate (m w : ℕ) (c : ℚ) (hw : 0 < w) (hwm : w ≤ m) :
    convValidUniform (List.replicate m c) w = List.replicate (m + 1 - w) c := by
  rw [convValidUniform, if_pos (by simp [hwm])]
  refine List.eq_replicate_iff.mpr ⟨by simp, ?_⟩
  intro b hb
  rw [List.mem_map] at hb
  obtain ⟨i, hi, rfl⟩ := hb
  rw [List.mem_range, List.length_replicate] at hi
  rw [List.drop_replicate, List.take_replicate]
  have hmin : min w (m - i) = w := by omega
  rw [hmin, List.sum_replicate, nsmul_eq_mul]
  exact mul_div_cancel_left₀ c (by exact_mod_cast Nat.pos_iff_ne_zero.mp hw)

theorem smoothPass_replicate (n w : ℕ) (c : ℚ) (hodd : w % 2 = 1) (hwn : w ≤ n) :
    smoothPass (List.replicate n c) w = List.replicate n c := by
  rw [smoothPass, reflectPad_replicate _ _ _ (by omega),
    convValidUniform_replicate _ _ _ (by omega) (by omega)]
  congr 1
  omega

theorem smooth_spectrum_replicate (n w passes : ℕ) (c : ℚ)
    (hodd : w % 2 = 1) (hwn : w ≤ n) :
    smooth_spectrum (List.replicate n c) w passes = List.replicate n c := by
  induction passes with
  | zero => rfl
  | succ p ih =>
    show smooth_spectrum (smoothPass _ w) w p = _
    rw [smoothPass_replicate n w c hodd hwn]
    exact ih

/-- C9: smoothing a constant flux sequence of length at least the (odd)
window width returns the same constant sequence, for every number of
passes. -/
theorem smoothing_constant_identity (n w passes : ℕ) (c : ℚ)
    (hodd : w % 2 = 1) (hwn : w ≤ n) :
    smooth_spectrum (List.replicate n c) w passes = List.replicate n c :=
  smooth_spectrum_replicate n w passes c hodd hwn

/-- Witness for C9 at the source defaults: window 7, 3 passes, constant 1,
length 7. -/
theorem smoothing_constant_identity_witness :
    (7 % 2 = 1 ∧ 7 ≤ 7) ∧
      smooth_spectrum (List.replicate 7 (1 : ℚ)) 7 3 = List.replicate 7 (1 : ℚ) :=
  ⟨⟨rfl, le_refl 7⟩, smoothing_constant_identity 7 7 3 1 rfl (le_refl 7)⟩

/-- Inner `while` loop of `find_lines` (hefind.py line 127): starting at
`pos`, advance while `pos < max_pos` and the qualifying test holds; return
the final position.  `fuel` bounds the iteration count; callers pass
`maxPos - pos`, which always suffices. -/
def findRunF : ℕ → (ℕ → Bool) → ℕ → ℕ → ℕ
  | 0, _, _, pos => pos
  | fuel + 1, q, maxPos, pos =>
      if pos < maxPos ∧ q pos = true then findRunF fuel q maxPos (pos + 1) else pos

/-- Outer `while` loop of `find_lines` (hefind.py lines 123-140), restricted
to the line-complex ranges it visits: from `pos`, find the end `e` of the
qualifying run starting at `pos`; if the run is non-empty record `(pos, e)`;
then continue from one past the position that ended the run (`pos += 1`
after the inner loop).  `fuel` bounds the iteration count. -/
def scanLoopF : ℕ → (ℕ → Bool) → ℕ → ℕ → List (ℕ × ℕ)
  | 0, _, _, _ => []
  | fuel + 1, q, maxPos, pos =>
      if pos < maxPos then
        let e := findRunF (maxPos - pos) q maxPos pos
        if pos < e then (pos, e) :: scanLoopF fuel q maxPos (e + 1)
        else scanLoopF fuel q maxPos (pos + 1)
      else []

/-- The qualifying test of hefind.py line 127:
`corrected[pos] < -threshold * noise[pos]`. -/
def belowThreshold (corrected noise : List ℚ) (threshold : ℚ) (i : ℕ) : Bool :=
  decide (corrected.getD i 0 < -threshold * noise.getD i 0)

/-- The line complexes visited by the scan loop of `find_lines`
(`max_pos = len(corrected)`, scan starts at `pos = 0`). -/
def scanComplexes (corrected noise : List ℚ) (threshold : ℚ) : List (ℕ × ℕ) :=
  scanLoopF corrected.length (belowThreshold corrected noise threshold) corrected.length 0

/-- `[s, e)` is a maximal non-empty run of indices satisfying `q`,
within `[0, maxPos)`. -/
def IsMaxRun (q : ℕ → Bool) (maxPos s e : ℕ) : Prop :=
  s < e ∧ e ≤ maxPos ∧ (∀ i, s ≤ i → i < e → q i = true) ∧
    (e < maxPos → q e = false) ∧ (0 < s → q (s - 1) = false)

theorem findRunF_spec (q : ℕ → Bool) (maxPos : ℕ) :
    ∀ fuel pos, maxPos ≤ fuel + pos → pos ≤ maxPos →
      pos ≤ findRunF fuel q maxPos pos ∧
      findRunF fuel q maxPos pos ≤ maxPos ∧
      (∀ i, pos ≤ i → i < findRunF fuel q maxPos pos → q i = true) ∧
      (findRunF fuel q maxPos pos < maxPos → q (findRunF fuel q maxPos pos) = false) := by
  intro fuel
  induction fuel with
  | zero =>
    intro pos h1 h2
    simp only [findRunF]
    exact ⟨le_refl _, h2, fun i hi hilt => by omega, fun h => by omega⟩
  | succ fuel ih =>
    intro pos h1 h2
    simp only [findRunF]
    by_cases hc : pos < maxPos ∧ q pos = true
    · rw [if_pos hc]
      obtain ⟨ih1, ih2, ih3, ih4⟩ := ih (pos + 1) (by omega) (by omega)
      refine ⟨by omega, ih2, ?_, ih4⟩
      intro i hi hilt
      rcases Nat.eq_or_lt_of_le hi with h | h
      · rw [← h]; exact hc.2
      · exact ih3 i h hilt
    · rw [if_neg hc]
      refine ⟨le_refl _, h2, fun i hi hilt => by omega, fun h => ?_⟩
      rcases Bool.eq_false_or_eq_true (q pos) with hq | hq
      · exact absurd ⟨h, hq⟩ hc
      · exact hq

theorem mem_scanLoopF (q : ℕ → Bool) (maxPos : ℕ) :
    ∀ fuel pos s e, maxPos ≤ fuel + pos →
      (pos = 0 ∨ q (pos - 1) = false ∨ maxPos < pos) →
      ((s, e) ∈ scanLoopF fuel q maxPos pos ↔
        (pos ≤ s ∧ s < e ∧ e ≤ maxPos ∧ (∀ i, s ≤ i → i < e → q i = true) ∧
          (e < maxPos → q e = false) ∧ (pos < s → q (s - 1) = false))) := by
  intro fuel
  induction fuel with
  | zero =>
    intro pos s e h1 _
    simp only [scanLoopF, List.not_mem_nil, false_iff]
    rintro ⟨hs, hse, hemax, -, -, -⟩
    omega
  | succ fuel ih =>
    intro pos s e hfuel hinv
    simp only [scanLoopF]
    by_cases hpm : pos < maxPos
    · rw [if_pos hpm]
      obtain ⟨hpe₀, he₀max, hall, hrmax⟩ :=
        findRunF_spec q maxPos (maxPos - pos) pos (by omega) (by omega)
      by_cases hpe : pos < findRunF (maxPos - pos) q maxPos pos
      · set e₀ := findRunF (maxPos - pos) q maxPos pos with he₀def
        rw [if_pos hpe]
        have hinv' : e₀ + 1 = 0 ∨ q (e₀ + 1 - 1) = false ∨ maxPos < e₀ + 1 := by
          rcases Nat.lt_or_ge e₀ maxPos with h | h
          · exact Or.inr (Or.inl (by simpa using hrmax h))
          · exact Or.inr (Or.inr (by omega))
        have ih' := ih (e₀ + 1) s e (by omega) hinv'
        simp only [List.mem_cons, Prod.mk.injEq]
        constructor
        · rintro (⟨rfl, rfl⟩ | htail)
          · exact ⟨le_refl _, hpe, he₀max, hall, hrmax, fun h => absurd h (lt_irrefl _)⟩
          · obtain ⟨h1, h2, h3, h4, h5, h6⟩ := ih'.mp htail
            refine ⟨by omega, h2, h3, h4, h5, fun hps => ?_⟩
            by_cases hx : e₀ + 1 < s
            · exact h6 hx
            · have hse₀ : s = e₀ + 1 := by omega
              have : s - 1 = e₀ := by omega
              rw [this]
              exact hrmax (by omega)
        · rintro ⟨h1, h2, h3, h4, h5, h6⟩
          by_cases hs : s = pos
          · subst hs
            have hee₀ : e = e₀ := by
              rcases lt_trichotomy e e₀ with h | h | h
              · have ht : q e = true := hall e (by omega) h
                have hf : q e = false := h5 (by omega)
                rw [ht] at hf
                exact absurd hf (by simp)
              · exact h
              · have ht : q e₀ = true := h4 e₀ (by omega) h
                have hf : q e₀ = false := hrmax (by omega)
                rw [ht] at hf
                exact absurd hf (by simp)
            exact Or.inl ⟨rfl, hee₀⟩
          · have hps : pos < s := by omega
            have he₀s : e₀ < s := by
              by_contra hcon
              push_neg at hcon
              have h7 : q (s - 1) = true := hall (s - 1) (by omega) (by omega)
              have h8 : q (s - 1) = false := h6 hps
              rw [h7] at h8
              exact absurd h8 (by simp)
            exact Or.inr (ih'.mpr ⟨by omega, h2, h3, h4, h5, fun _ => h6 (by omega)⟩)
      · rw [if_neg hpe]
        have he₀pos : findRunF (maxPos - pos) q maxPos pos = pos := by omega
        have hqpos : q pos = false := by
          have := hrmax
          rw [he₀pos] at this
          exact this hpm
        have ih' := ih (pos + 1) s e (by omega) (Or.inr (Or.inl (by simpa using hqpos)))
        rw [ih']
        constructor
        · rintro ⟨h1, h2, h3, h4, h5, h6⟩
          refine ⟨by omega, h2, h3, h4, h5, fun hps => ?_⟩
          by_cases hx : pos + 1 < s
          · exact h6 hx
          · have hsp : s = pos + 1 := by omega
            have : s - 1 = pos := by omega
            rw [this]
            exact hqpos
        · rintro ⟨h1, h2, h3, h4, h5, h6⟩
          have hsp : pos < s := by
            rcases Nat.lt_or_ge pos s with h | h
            · exact h
            · exfalso
              have hspos : s = pos := by omega
              have ht : q pos = true := by
                rw [← hspos]
                exact h4 s (le_refl _) (by omega)
              rw [ht] at hqpos
              exact absurd hqpos (by simp)
          exact ⟨by omega, h2, h3, h4, h5, fun _ => h6 (by omega)⟩
    · rw [if_neg hpm]
      simp only [List.not_mem_nil, false_iff]
      rintro ⟨h1, h2, h3, -, -, -⟩
      omega

theorem scanLoopF_start_le (q : ℕ → Bool) (maxPos : ℕ) :
    ∀ fuel pos s e, (s, e) ∈ scanLoopF fuel q maxPos pos → pos ≤ s := by
  intro fuel
  induction fuel with
  | zero => intro pos s e h; simp [scanLoopF] at h
  | succ fuel ih =>
    intro pos s e h
    simp only [scanLoopF] at h
    by_cases hpm : pos < maxPos
    · rw [if_pos hpm] at h
      by_cases hpe : pos < findRunF (maxPos - pos) q maxPos pos
      · rw [if_pos hpe] at h
        rcases List.mem_cons.mp h with heq | htail
        · rw [Prod.mk.injEq] at heq
          omega
        · have := ih _ s e htail
          omega
      · rw [if_neg hpe] at h
        have := ih _ s e h
        omega
    · rw [if_neg hpm] at h
      simp at h

theorem scanLoopF_pairwise (q : ℕ → Bool) (maxPos : ℕ) :
    ∀ fuel pos, (scanLoopF fuel q maxPos pos).Pairwise (fun a b => a.2 < b.1) := by
  intro fuel
  induction fuel with
  | zero => intro pos; simp [scanLoopF]
  | succ fuel ih =>
    intro pos
    simp only [scanLoopF]
    by_cases hpm : pos < maxPos
    · rw [if_pos hpm]
      by_cases hpe : pos < findRunF (maxPos - pos) q maxPos pos
      · rw [if_pos hpe]
        rw [List.pairwise_cons]
        refine ⟨fun b hb => ?_, ih _⟩
        have := scanLoopF_start_le q maxPos fuel _ b.1 b.2 hb
        omega
      · rw [if_neg hpe]
        exact ih _
    · rw [if_neg hpm]
      exact List.Pairwise.nil

/-- C2: the line-complex detector returns exactly the maximal contiguous
index ranges `[s, e)` on which every index satisfies
`corrected[i] < -threshold * noise[i]`; the ranges are non-empty (`s < e`),
within bounds, and pairwise disjoint in increasing order; runs with no
qualifying sample are never recorded. -/
theorem scanComplexes_maximal_runs (corrected noise : List ℚ) (threshold : ℚ)
    (_hlen : noise.length = corrected.length) :
    (∀ s e : ℕ, ((s, e) ∈ scanComplexes corrected noise threshold ↔
        IsMaxRun (belowThreshold corrected noise threshold) corrected.length s e)) ∧
    (scanComplexes corrected noise threshold).Pairwise (fun a b => a.2 < b.1) := by
  constructor
  · intro s e
    rw [scanComplexes, mem_scanLoopF _ _ _ 0 s e (by omega) (Or.inl rfl)]
    unfold IsMaxRun
    constructor
    · rintro ⟨-, h2, h3, h4, h5, h6⟩
      exact ⟨h2, h3, h4, h5, fun h => h6 h⟩
    · rintro ⟨h2, h3, h4, h5, h6⟩
      exact ⟨Nat.zero_le _, h2, h3, h4, h5, fun h => h6 h⟩
  · exact scanLoopF_pairwise _ _ _ _

/-- Witness for C2 at a concrete input: `corrected = [-1, 0, -1]`,
`noise = [0, 0, 0]`, `threshold = 1`. -/
theorem scanComplexes_maximal_runs_witness :
    (0, 1) ∈ scanComplexes [-1, 0, -1] [0, 0, 0] 1 ↔
      IsMaxRun (belowThreshold [-1, 0, -1] [0, 0, 0] 1) 3 0 1 :=
  (scanComplexes_maximal_runs [-1, 0, -1] [0, 0, 0] 1 rfl).1 0 1

/-- scipy `reflect` boundary indexing `(c b a | a b c | c b a)` for a single
reflection on each side (sufficient here: the window radii used are smaller
than the array length). -/
def reflGet (l : List ℚ) (i : ℤ) : ℚ :=
  let n : ℤ := l.length
  let j : ℤ := if i < 0 then -1 - i else if n ≤ i then 2 * n - 1 - i else i
  l.getD j.toNat 0

/-- Minimum of a list, `0` for the empty list (the empty case is
unreachable for the window sizes used by `baseline`). -/
def minD : List ℚ → ℚ
  | [] => 0
  | x :: xs => xs.foldl min x

/-- Maximum of a list, `0` for the empty list. -/
def maxD : List ℚ → ℚ
  | [] => 0
  | x :: xs => xs.foldl max x

/-- The window of `k` samples around index `i` (footprint of
`numpy.ones(k)`, default origin: offsets `j - k // 2` for `j < k`), read
with reflective boundary handling. -/
def windowVals (l : List ℚ) (k i : ℕ) : List ℚ :=
  (List.range k).map (fun (j : ℕ) => reflGet l ((i : ℤ) + (j : ℤ) - ((k / 2 : ℕ) : ℤ)))

/-- `scipy.ndimage.grey_erosion` with structuring element `numpy.ones(k)`:
the structure values are subtracted inside the minimum, hence the `- 1`. -/
def greyErosion (l : List ℚ) (k : ℕ) : List ℚ :=
  (List.range l.length).map (fun i => minD (windowVals l k i) - 1)

/-- `scipy.ndimage.grey_dilation` with structuring element `numpy.ones(k)`:
the structure values are added inside the maximum. -/
def greyDilation (l : List ℚ) (k : ℕ) : List ℚ :=
  (List.range l.length).map (fun i => maxD (windowVals l k i) + 1)

/-- `scipy.ndimage.morphology.white_tophat(l, structure=numpy.ones(k),
mode='reflect')`: the input minus its grayscale opening (erosion followed
by dilation). -/
def whiteTophat (l : List ℚ) (k : ℕ) : List ℚ :=
  List.zipWith (fun a b => a - b) l (greyDilation (greyErosion l k) k)

/-- `baseline` (hefind.py lines 150-163): negate the flux, white top-hat
with a flat structuring element of `int(fraction_pts * len(fluxes))` points
(default `fraction_pts = 0.2`, i.e. `⌊n/5⌋` in exact arithmetic), negate
back. -/
def baseline (fluxes : List ℚ) : List ℚ :=
  (whiteTophat (fluxes.map (fun x => -x)) (fluxes.length / 5)).map (fun x => -x)

theorem greyErosion_length (l : List ℚ) (k : ℕ) : (greyErosion l k).length = l.length := by
  simp [greyErosion]

theorem greyDilation_length (l : List ℚ) (k : ℕ) :
    (greyDilation l k).length = l.length := by
  simp [greyDilation]

theorem whiteTophat_length (l : List ℚ) (k : ℕ) : (whiteTophat l k).length = l.length := by
  simp [whiteTophat, greyDilation_length, greyErosion_length]

theorem baseline_length (l : List ℚ) : (baseline l).length = l.length := by
  simp [baseline, whiteTophat_length]

/-- `window_width = int(len(fluxes) * fraction_pts / 2) * 2 + 1`
(hefind.py line 100, `fraction_pts = 0.2`), in exact arithmetic
`⌊n/10⌋ * 2 + 1`. -/
def lineWindowWidth (n : ℕ) : ℕ := n / 10 * 2 + 1

/-- `half_width = window_width // 2` (hefind.py line 101). -/
def lineHalfWidth (n : ℕ) : ℕ := lineWindowWidth n / 2

/-- The reflected residual `numpy.abs(x - xs)` (hefind.py lines 102-108),
where `x`/`xs` are the reflect-padded raw and smoothed fluxes. -/
def residualOf (fluxes smoothed : List ℚ) (h : ℕ) : List ℚ :=
  List.zipWith (fun a b => |a - b|) (reflectPad fluxes h) (reflectPad smoothed h)

/-- The noise profile (hefind.py lines 109-112): windowed average of the
reflected residual (`valid` convolution with the uniform kernel). -/
def noiseOf (fluxes smoothed : List ℚ) : List ℚ :=
  convValidUniform (residualOf fluxes smoothed (lineHalfWidth fluxes.length))
    (lineWindowWidth fluxes.length)

/-- Per-line signal-to-noise (hefind.py line 138):
`residual[center + half_width] / noise[center]`.  numpy float division by a
zero noise value yields a non-fatal `inf`/`nan` sentinel instead of
raising; that sentinel is modelled as `none`. -/
def snrAt (residual noise : List ℚ) (h c : ℕ) : Option ℚ :=
  if noise.getD c 0 = 0 then none
  else some (residual.getD (c + h) 0 / noise.getD c 0)

/-- `find_lines` (hefind.py lines 91-147) without the plotting branches:
the list of `(line center index, signal-to-noise)` pairs, one per resolved
center of each detected line complex, in scan order. -/
def find_lines (fluxes smoothed corrected : List ℚ) (threshold : ℚ) :
    List (ℕ × Option ℚ) :=
  let h := lineHalfWidth fluxes.length
  let residual := residualOf fluxes smoothed h
  let noise := noiseOf fluxes smoothed
  (scanComplexes corrected noise threshold).flatMap fun se =>
    (find_centers ((corrected.drop se.1).take (se.2 - se.1))).map fun i =>
      (se.1 + i, snrAt residual noise h (se.1 + i))

theorem lineHalfWidth_eq (n : ℕ) : lineHalfWidth n = n / 10 := by
  simp only [lineHalfWidth, lineWindowWidth]
  omega

theorem lineHalfWidth_succ_le (n : ℕ) (hn : 1 ≤ n) : lineHalfWidth n + 1 ≤ n := by
  rw [lineHalfWidth_eq]
  have := Nat.div_lt_self hn (by norm_num : 1 < 10)
  omega

theorem residualOf_length (fluxes smoothed : List ℚ) (h : ℕ)
    (hsm : smoothed.length = fluxes.length) (hl : h + 1 ≤ fluxes.length) :
    (residualOf fluxes smoothed h).length = fluxes.length + 2 * h := by
  have h1 := reflectPad_length fluxes h hl
  have h2 := reflectPad_length smoothed h (by rw [hsm]; exact hl)
  rw [hsm] at h2
  simp [residualOf, List.length_zipWith, h1, h2]

theorem noiseOf_length (fluxes smoothed : List ℚ)
    (hsm : smoothed.length = fluxes.length) (hn : 1 ≤ fluxes.length) :
    (noiseOf fluxes smoothed).length = fluxes.length := by
  have hres := residualOf_length fluxes smoothed (lineHalfWidth fluxes.length) hsm
    (lineHalfWidth_succ_le _ hn)
  rw [noiseOf, convValidUniform_length_of_le _ _ (by rw [hres]; simp [lineWindowWidth, lineHalfWidth_eq]; omega), hres]
  simp only [lineWindowWidth, lineHalfWidth_eq]
  omega

/-- C4: with an odd smoothing window no longer than the input flux, every
derived sequence — the smoothed flux (any number of passes), the
baseline-corrected flux, and the noise profile — has exactly the input's
length. -/
theorem derived_sequences_length_invariant (fluxes : List ℚ) (w passes : ℕ)
    (hodd : w % 2 = 1) (hwl : w ≤ fluxes.length) :
    (smooth_spectrum fluxes w passes).length = fluxes.length ∧
    (baseline (smooth_spectrum fluxes w passes)).length = fluxes.length ∧
    (noiseOf fluxes (smooth_spectrum fluxes w passes)).length = fluxes.length := by
  have hs := smooth_spectrum_length w hodd passes fluxes hwl
  exact ⟨hs, by rw [baseline_length, hs], noiseOf_length _ _ hs (by omega)⟩

/-- Witness for C4 at a concrete input: constant flux of length 7, the
default window 7, one pass. -/
theorem derived_sequences_length_invariant_witness :
    (7 % 2 = 1 ∧ 7 ≤ (List.replicate 7 (0 : ℚ)).length) ∧
      (smooth_spectrum (List.replicate 7 (0 : ℚ)) 7 1).length = 7 ∧
      (baseline (smooth_spectrum (List.replicate 7 (0 : ℚ)) 7 1)).length = 7 ∧
      (noiseOf (List.replicate 7 (0 : ℚ))
          (smooth_spectrum (List.replicate 7 (0 : ℚ)) 7 1)).length = 7 :=
  ⟨⟨rfl, by simp⟩,
    derived_sequences_length_invariant (List.replicate 7 (0 : ℚ)) 7 1 rfl (by simp)⟩

/-- C8 counterexample: an input whose length equals the window width is
processed normally by the smoother — a result is produced (here even
length-preserving and value-preserving), no `DegenerateWindow` error is
reported. -/
theorem degenerate_window_no_error_counterexample :
    smooth_spectrum (List.replicate 7 (1 : ℚ)) 7 3 = List.replicate 7 (1 : ℚ) :=
  smooth_spectrum_replicate 7 7 3 1 rfl (le_refl 7)

theorem smooth_two_sample_eval :
    smooth_spectrum [(0 : ℚ), 2] 7 3 = List.replicate 4 ((4 : ℚ) / 7) := by
  have hpad : reflectPad [(0 : ℚ), 2] 3 = [2, 0, 2, 0] := rfl
  have hpass1 : smoothPass [(0 : ℚ), 2] 7 = List.replicate 4 ((4 : ℚ) / 7) := by
    have h1 : (7 : ℕ) + 1 - ([(2 : ℚ), 0, 2, 0]).length = 4 := by norm_num
    rw [smoothPass]
    show convValidUniform (reflectPad [(0 : ℚ), 2] 3) 7 = _
    rw [hpad, convValidUniform, if_neg (by norm_num), h1]
    congr 1
    push_cast
    norm_num [List.sum_cons, List.sum_nil]
  have hpassrep : smoothPass (List.replicate 4 ((4 : ℚ) / 7)) 7 =
      List.replicate 4 ((4 : ℚ) / 7) := by
    rw [smoothPass]
    show convValidUniform (reflectPad (List.replicate 4 ((4 : ℚ) / 7)) 3) 7 = _
    rw [reflectPad_replicate 4 3 _ (by norm_num),
      convValidUniform_replicate 10 7 _ (by norm_num) (by norm_num)]
  calc smooth_spectrum [(0 : ℚ), 2] 7 3
      = smooth_spectrum (smoothPass [(0 : ℚ), 2] 7) 7 2 := rfl
    _ = smooth_spectrum (List.replicate 4 ((4 : ℚ) / 7)) 7 2 := by rw [hpass1]
    _ = smooth_spectrum (smoothPass (List.replicate 4 ((4 : ℚ) / 7)) 7) 7 1 := rfl
    _ = smooth_spectrum (List.replicate 4 ((4 : ℚ) / 7)) 7 1 := by rw [hpassrep]
    _ = smooth_spectrum (smoothPass (List.replicate 4 ((4 : ℚ) / 7)) 7) 7 0 := rfl
    _ = smooth_spectrum (List.replicate 4 ((4 : ℚ) / 7)) 7 0 := by rw [hpassrep]
    _ = List.replicate 4 ((4 : ℚ) / 7) := rfl

/-- C8 amended: for input length at or below the window width no error is
reported and the window is not clamped or validated: a length-2 input
silently produces a length-4 output (Python slice clamping plus numpy
`valid` convolution with a kernel longer than the signal). -/
theorem degenerate_window_silent_behavior :
    smooth_spectrum [(0 : ℚ), 2] 7 3 = List.replicate 4 ((4 : ℚ) / 7) ∧
      (smooth_spectrum [(0 : ℚ), 2] 7 3).length = 4 :=
  ⟨smooth_two_sample_eval, by rw [smooth_two_sample_eval]; rfl⟩

/-- C3: the center resolver returns exactly the local indices `i`,
`1 ≤ i ≤ len(segment) - 2`, at which
`sign(segment[i+1] - segment[i]) - sign(segment[i] - segment[i-1]) > 0`,
as a strictly increasing (hence ordered, possibly empty) sequence. -/
theorem find_centers_curvature_spec (seg : List ℚ) :
    (∀ i : ℕ, i ∈ find_centers seg ↔
      1 ≤ i ∧ i ≤ seg.length - 2 ∧
        0 < sign (seg.getD (i + 1) 0 - seg.getD i 0)
            - sign (seg.getD i 0 - seg.getD (i - 1) 0)) ∧
    (find_centers seg).Pairwise (· < ·) :=
  ⟨fun i => mem_find_centers seg i, find_centers_sorted seg⟩

theorem getD_replicate_zero (n j : ℕ) : (List.replicate n (0 : ℚ)).getD j 0 = 0 := by
  rcases Nat.lt_or_ge j n with h | h
  · rw [List.getD_eq_getElem _ _ (by simpa using h), List.getElem_replicate]
  · rw [List.getD_eq_default _ _ (by simpa using h)]

theorem foldl_min_replicate (c : ℚ) : ∀ k, List.foldl min c (List.replicate k c) = c
  | 0 => rfl
  | k + 1 => by
    rw [List.replicate_succ, List.foldl_cons, min_self]
    exact foldl_min_replicate c k

theorem foldl_max_replicate (c : ℚ) : ∀ k, List.foldl max c (List.replicate k c) = c
  | 0 => rfl
  | k + 1 => by
    rw [List.replicate_succ, List.foldl_cons, max_self]
    exact foldl_max_replicate c k

theorem minD_replicate (k : ℕ) (c : ℚ) : minD (List.replicate (k + 1) c) = c := by
  rw [List.replicate_succ]
  show List.foldl min c (List.replicate k c) = c
  exact foldl_min_replicate c k

theorem maxD_replicate (k : ℕ) (c : ℚ) : maxD (List.replicate (k + 1) c) = c := by
  rw [List.replicate_succ]
  show List.foldl max c (List.replicate k c) = c
  exact foldl_max_replicate c k

theorem windowVals_replicate (n k i : ℕ) (c : ℚ) (hkn : k ≤ n) (hi : i < n) :
    windowVals (List.replicate n c) k i = List.replicate k c := by
  refine List.eq_replicate_iff.mpr ⟨by simp [windowVals], fun b hb => ?_⟩
  simp only [windowVals, List.mem_map, List.mem_range] at hb
  obtain ⟨j, hj, rfl⟩ := hb
  simp only [reflGet, List.length_replicate]
  have hj2 : k / 2 ≤ k := Nat.div_le_self k 2
  split_ifs with h1 h2
  · have hlt : (-1 - ((i : ℤ) + (j : ℤ) - ((k / 2 : ℕ) : ℤ))).toNat < n := by omega
    rw [List.getD_eq_getElem _ _ (by simpa using hlt), List.getElem_replicate]
  · have hlt : (2 * (n : ℤ) - 1 - ((i : ℤ) + (j : ℤ) - ((k / 2 : ℕ) : ℤ))).toNat < n := by
      omega
    rw [List.getD_eq_getElem _ _ (by simpa using hlt), List.getElem_replicate]
  · have hlt : (((i : ℤ) + (j : ℤ) - ((k / 2 : ℕ) : ℤ))).toNat < n := by omega
    rw [List.getD_eq_getElem _ _ (by simpa using hlt), List.getElem_replicate]

theorem greyErosion_replicate (n k : ℕ) (c : ℚ) (hk : 0 < k) (hkn : k ≤ n) :
    greyErosion (List.replicate n c) k = List.replicate n (c - 1) := by
  refine List.eq_replicate_iff.mpr ⟨by simp [greyErosion], fun b hb => ?_⟩
  simp only [greyErosion, List.length_replicate, List.mem_map, List.mem_range] at hb
  obtain ⟨i, hi, rfl⟩ := hb
  rw [windowVals_replicate n k i c hkn hi]
  obtain ⟨m, rfl⟩ : ∃ m, k = m + 1 := ⟨k - 1, by omega⟩
  rw [minD_replicate]

theorem greyDilation_replicate (n k : ℕ) (c : ℚ) (hk : 0 < k) (hkn : k ≤ n) :
    greyDilation (List.replicate n c) k = List.replicate n (c + 1) := by
  refine List.eq_replicate_iff.mpr ⟨by simp [greyDilation], fun b hb => ?_⟩
  simp only [greyDilation, List.length_replicate, List.mem_map, List.mem_range] at hb
  obtain ⟨i, hi, rfl⟩ := hb
  rw [windowVals_replicate n k i c hkn hi]
  obtain ⟨m, rfl⟩ : ∃ m, k = m + 1 := ⟨k - 1, by omega⟩
  rw [maxD_replicate]

theorem whiteTophat_replicate (n k : ℕ) (c : ℚ) (hk : 0 < k) (hkn : k ≤ n) :
    whiteTophat (List.replicate n c) k = List.replicate n 0 := by
  rw [whiteTophat, greyErosion_replicate n k c hk hkn,
    greyDilation_replicate n k (c - 1) hk hkn, List.zipWith_replicate]
  congr 1
  · exact min_self n
  · ring

theorem baseline_replicate (n : ℕ) (c : ℚ) (h5 : 5 ≤ n) :
    baseline (List.replicate n c) = List.replicate n 0 := by
  have hk : 0 < n / 5 := Nat.div_pos h5 (by norm_num)
  have hkn : n / 5 ≤ n := Nat.div_le_self n 5
  rw [baseline, List.map_replicate, List.length_replicate,
    whiteTophat_replicate n (n / 5) (-c) hk hkn, List.map_replicate]
  norm_num

theorem lineWindowWidth_eq (n : ℕ) : lineWindowWidth n = 2 * lineHalfWidth n + 1 := by
  rw [lineHalfWidth_eq]
  simp only [lineWindowWidth]
  omega

theorem residualOf_replicate_zero (n : ℕ) (hn : 1 ≤ n) :
    residualOf (List.replicate n (0 : ℚ)) (List.replicate n 0) (lineHalfWidth n) =
      List.replicate (n + 2 * lineHalfWidth n) 0 := by
  have hh := lineHalfWidth_succ_le n hn
  rw [residualOf, reflectPad_replicate n _ 0 (by omega), List.zipWith_replicate]
  congr 1
  · exact min_self _
  · simp

theorem noiseOf_replicate_zero (n : ℕ) (hn : 1 ≤ n) :
    noiseOf (List.replicate n (0 : ℚ)) (List.replicate n 0) = List.replicate n 0 := by
  simp only [noiseOf, List.length_replicate]
  rw [residualOf_replicate_zero n hn,
    convValidUniform_replicate _ _ _ (by rw [lineWindowWidth_eq]; omega)
      (by rw [lineWindowWidth_eq]; omega)]
  congr 1
  rw [lineWindowWidth_eq]
  omega

theorem findRunF_stop (q : ℕ → Bool) (maxPos pos : ℕ) (hq : q pos = false) :
    ∀ fuel, findRunF fuel q maxPos pos = pos := by
  intro fuel
  cases fuel with
  | zero => rfl
  | succ fuel => simp [findRunF, hq]

theorem scanLoopF_all_false (q : ℕ → Bool) (hq : ∀ i, q i = false) (maxPos : ℕ) :
    ∀ fuel pos, scanLoopF fuel q maxPos pos = [] := by
  intro fuel
  induction fuel with
  | zero => intro pos; rfl
  | succ fuel ih =>
    intro pos
    simp only [scanLoopF]
    by_cases hpm : pos < maxPos
    · rw [if_pos hpm, findRunF_stop q maxPos pos (hq pos), if_neg (lt_irrefl pos), ih]
    · rw [if_neg hpm]

theorem find_lines_replicate_zero (n : ℕ) (hn : 1 ≤ n) (t : ℚ) :
    find_lines (List.replicate n 0) (List.replicate n 0) (List.replicate n 0) t = [] := by
  have hq : ∀ i, belowThreshold (List.replicate n 0)
      (noiseOf (List.replicate n 0) (List.replicate n 0)) t i = false := by
    intro i
    rw [belowThreshold, noiseOf_replicate_zero n hn, getD_replicate_zero]
    simp
  simp only [find_lines, scanComplexes, List.length_replicate]
  rw [scanLoopF_all_false _ hq n n 0, List.flatMap_nil]

theorem getD_reflectPad_mid (l : List ℚ) (h c : ℕ) (hl : h + 1 ≤ l.length)
    (hc : c < l.length) :
    (reflectPad l h).getD (c + h) 0 = l.getD c 0 := by
  have hpre : (((l.drop 1).take h).reverse).length = h := by
    simp only [List.length_reverse, List.length_take, List.length_drop]
    omega
  rw [reflectPad, List.append_assoc,
    List.getD_append_right _ _ _ _ (by rw [hpre]; omega), hpre]
  have hidx : c + h - h = c := by omega
  rw [hidx, List.getD_append _ _ _ _ hc]

theorem getD_zipWith_abs (as bs : List ℚ) (i : ℕ) (ha : i < as.length)
    (hb : i < bs.length) :
    (List.zipWith (fun a b => |a - b|) as bs).getD i 0 = |as.getD i 0 - bs.getD i 0| := by
  have hz : i < (List.zipWith (fun a b => |a - b|) as bs).length := by
    rw [List.length_zipWith]
    exact lt_min ha hb
  rw [List.getD_eq_getElem _ _ hz, List.getElem_zipWith,
    List.getD_eq_getElem as 0 ha, List.getD_eq_getElem bs 0 hb]

theorem residualOf_getD (fluxes smoothed : List ℚ) (h c : ℕ)
    (hsm : smoothed.length = fluxes.length) (hl : h + 1 ≤ fluxes.length)
    (hc : c < fluxes.length) :
    (residualOf fluxes smoothed h).getD (c + h) 0 =
      |fluxes.getD c 0 - smoothed.getD c 0| := by
  have hl' : h + 1 ≤ smoothed.length := by omega
  have h1 : (reflectPad fluxes h).length = fluxes.length + 2 * h :=
    reflectPad_length _ _ hl
  have h2 : (reflectPad smoothed h).length = fluxes.length + 2 * h := by
    rw [reflectPad_length _ _ hl', hsm]
  rw [residualOf, getD_zipWith_abs _ _ _ (by rw [h1]; omega) (by rw [h2]; omega),
    getD_reflectPad_mid fluxes h c hl hc,
    getD_reflectPad_mid smoothed h c hl' (by omega)]

theorem mem_find_lines (fluxes smoothed corrected : List ℚ) (t : ℚ) (c : ℕ)
    (sn : Option ℚ) :
    (c, sn) ∈ find_lines fluxes smoothed corrected t ↔
      ∃ se ∈ scanComplexes corrected (noiseOf fluxes smoothed) t,
        ∃ i ∈ find_centers ((corrected.drop se.1).take (se.2 - se.1)),
          c = se.1 + i ∧
            sn = snrAt (residualOf fluxes smoothed (lineHalfWidth fluxes.length))
              (noiseOf fluxes smoothed) (lineHalfWidth fluxes.length) (se.1 + i) := by
  simp only [find_lines, List.mem_flatMap, List.mem_map]
  constructor
  · rintro ⟨se, hse, i, hi, heq⟩
    rw [Prod.mk.injEq] at heq
    exact ⟨se, hse, i, hi, heq.1.symm, heq.2.symm⟩
  · rintro ⟨se, hse, i, hi, h1, h2⟩
    exact ⟨se, hse, i, hi, by rw [Prod.mk.injEq]; exact ⟨h1.symm, h2.symm⟩⟩

theorem scanComplexes_mem_bounds (corrected noise : List ℚ) (t : ℚ) (s e : ℕ)
    (hse : (s, e) ∈ scanComplexes corrected noise t) :
    s < e ∧ e ≤ corrected.length := by
  rw [scanComplexes] at hse
  have h := (mem_scanLoopF _ _ corrected.length 0 s e (by omega) (Or.inl rfl)).mp hse
  exact ⟨h.2.1, h.2.2.1⟩

/-- Reference wavelength tables (hefind.py lines 30-34). -/
def HELIUM_I_LINES : List ℚ := [3888.65, 4471.5, 5015.678, 5875.6404, 6678.1517, 7065.2153]

/-- Singly ionized helium reference line. -/
def HELIUM_II_LINES : List ℚ := [4685.7]

/-- `HELIUM_LINES = HELIUM_I_LINES + HELIUM_II_LINES`. -/
def HELIUM_LINES : List ℚ := HELIUM_I_LINES ++ HELIUM_II_LINES

/-- The matching loop of `find_helium` (hefind.py lines 201-206): for every
detected line and every reference wavelength, append
`(wavs[line_index], sn)` whenever `|wavs[line_index] - heline| < tol`
(source tolerance: 5 angstrom).  No deduplication is performed. -/
def matchesOf (wavs : List ℚ) (lines : List (ℕ × Option ℚ)) (tbl : List ℚ)
    (tol : ℚ) : List (ℚ × Option ℚ) :=
  lines.flatMap fun p =>
    (tbl.filter fun heline => decide (|wavs.getD p.1 0 - heline| < tol)).map
      fun _ => (wavs.getD p.1 0, p.2)

/-- The verdict rule of `find_helium` (hefind.py line 207): positive
detection iff at least two matches were collected. -/
def heVerdict (wavs : List ℚ) (lines : List (ℕ × Option ℚ)) (tbl : List ℚ)
    (tol : ℚ) : Bool :=
  decide (2 ≤ (matchesOf wavs lines tbl tol).length)

/-- `find_helium` (hefind.py lines 179-216) after file reading, without the
printing/plotting side effects: the verdict together with the collected
match list. -/
def find_helium_verdict (wavs fluxes : List ℚ) (threshold : ℚ) :
    Bool × List (ℚ × Option ℚ) :=
  let smoothed := smooth_spectrum fluxes 7 3
  let corrected := baseline smoothed
  let lines := find_lines fluxes smoothed corrected threshold
  let found := matchesOf wavs lines HELIUM_LINES 5
  (decide (2 ≤ found.length), found)

/-- The number of matches as the specification words it: pairs of a
detected line and a reference wavelength with absolute wavelength
difference strictly below the tolerance, counted over all pairs without
deduplication. -/
def specMatchCount (wavs : List ℚ) (lines : List (ℕ × Option ℚ)) (tbl : List ℚ)
    (tol : ℚ) : ℕ :=
  (lines.flatMap fun p => tbl.map fun heline => (p, heline)).countP
    fun q => decide (|wavs.getD q.1.1 0 - q.2| < tol)

theorem matchesOf_length (wavs tbl : List ℚ) (tol : ℚ) :
    ∀ lines, (matchesOf wavs lines tbl tol).length = specMatchCount wavs lines tbl tol := by
  intro lines
  induction lines with
  | nil => rfl
  | cons p ps ih =>
    have h1 : matchesOf wavs (p :: ps) tbl tol =
        ((tbl.filter fun heline => decide (|wavs.getD p.1 0 - heline| < tol)).map
          fun _ => (wavs.getD p.1 0, p.2)) ++ matchesOf wavs ps tbl tol := by
      simp only [matchesOf, List.flatMap_cons]
    have h2 : specMatchCount wavs (p :: ps) tbl tol =
        List.countP (fun q => decide (|wavs.getD q.1.1 0 - q.2| < tol))
          (tbl.map fun heline => (p, heline)) + specMatchCount wavs ps tbl tol := by
      simp only [specMatchCount, List.flatMap_cons, List.countP_append]
    rw [h1, h2, List.length_append, List.length_map, ih]
    congr 1
    rw [List.countP_map, ← List.countP_eq_length_filter]
    rfl

theorem matchesOf_map_none (wavs tbl : List ℚ) (tol : ℚ) :
    ∀ lines : List (ℕ × Option ℚ),
      (matchesOf wavs (lines.map fun p => (p.1, (none : Option ℚ))) tbl tol).length =
        (matchesOf wavs lines tbl tol).length := by
  intro lines
  induction lines with
  | nil => rfl
  | cons p ps ih =>
    have h1 : (p :: ps).map (fun p => (p.1, (none : Option ℚ))) =
        (p.1, (none : Option ℚ)) :: ps.map (fun p => (p.1, none)) := rfl
    have h2 : matchesOf wavs ((p.1, (none : Option ℚ)) ::
          ps.map fun p => (p.1, none)) tbl tol =
        ((tbl.filter fun heline => decide (|wavs.getD p.1 0 - heline| < tol)).map
          fun _ => (wavs.getD p.1 0, (none : Option ℚ))) ++
          matchesOf wavs (ps.map fun p => (p.1, none)) tbl tol := by
      simp only [matchesOf, List.flatMap_cons]
    have h3 : matchesOf wavs (p :: ps) tbl tol =
        ((tbl.filter fun heline => decide (|wavs.getD p.1 0 - heline| < tol)).map
          fun _ => (wavs.getD p.1 0, p.2)) ++ matchesOf wavs ps tbl tol := by
      simp only [matchesOf, List.flatMap_cons]
    rw [h1, h2, h3, List.length_append, List.length_append, List.length_map,
      List.length_map, ih]

/-- C1: the detection verdict is positive if and only if the number of
matches is at least 2, a match being any pair of a detected line and a
reference wavelength with absolute wavelength difference strictly below the
tolerance, counted over all pairs without deduplication; and `find_helium`
applies exactly this rule with table `HELIUM_LINES` and tolerance 5. -/
theorem helium_verdict_iff_two_matches (wavs fluxes : List ℚ)
    (lines : List (ℕ × Option ℚ)) (tbl : List ℚ) (tol t : ℚ) :
    (heVerdict wavs lines tbl tol = true ↔ 2 ≤ specMatchCount wavs lines tbl tol) ∧
      (find_helium_verdict wavs fluxes t).1 =
        heVerdict wavs (find_lines fluxes (smooth_spectrum fluxes 7 3)
          (baseline (smooth_spectrum fluxes 7 3)) t) HELIUM_LINES 5 := by
  constructor
  · rw [heVerdict, matchesOf_length, decide_eq_true_eq]
  · simp only [find_helium_verdict, heVerdict]

/-- C7 counterexample: `find_helium` performs no wavelength-monotonicity
validation; on a spectrum whose wavelengths are not strictly increasing it
still runs the whole pipeline and produces a verdict instead of reporting
a `MalformedInput` error. -/
theorem no_monotonicity_check_counterexample :
    ¬ List.Chain' (· < ·) ((1 : ℚ) :: List.replicate 9 0) ∧
      find_helium_verdict ((1 : ℚ) :: List.replicate 9 0) (List.replicate 10 0) 1 =
        (false, []) := by
  constructor
  · intro hch
    rw [List.replicate_succ, List.chain'_cons] at hch
    exact absurd hch.1 (by norm_num)
  · have hsm : smooth_spectrum (List.replicate 10 (0 : ℚ)) 7 3 = List.replicate 10 0 :=
      smooth_spectrum_replicate 10 7 3 0 rfl (by norm_num)
    have hbl : baseline (List.replicate 10 (0 : ℚ)) = List.replicate 10 0 :=
      baseline_replicate 10 0 (by norm_num)
    have hfl := find_lines_replicate_zero 10 (by norm_num) 1
    simp only [find_helium_verdict]
    rw [hsm, hbl, hfl]
    rfl

/-- C7 amended: no monotonicity check exists; even for a non-increasing
wavelength sequence the analysis produces a verdict, governed by the usual
match-count rule, rather than aborting with an error. -/
theorem verdict_without_monotonicity (wavs fluxes : List ℚ) (t : ℚ)
    (hmono : ¬ List.Chain' (· < ·) wavs) :
    ((find_helium_verdict wavs fluxes t).1 = true ↔
      2 ≤ specMatchCount wavs (find_lines fluxes (smooth_spectrum fluxes 7 3)
        (baseline (smooth_spectrum fluxes 7 3)) t) HELIUM_LINES 5) := by
  simp only [find_helium_verdict]
  rw [matchesOf_length, decide_eq_true_eq]

/-- Witness for the amended C7 at a concrete non-monotonic input. -/
theorem verdict_without_monotonicity_witness :
    ¬ List.Chain' (· < ·) ((1 : ℚ) :: List.replicate 9 0) ∧
      (((find_helium_verdict ((1 : ℚ) :: List.replicate 9 0)
            (List.replicate 10 0) 1).1 = true) ↔
        2 ≤ specMatchCount ((1 : ℚ) :: List.replicate 9 0)
          (find_lines (List.replicate 10 0) (smooth_spectrum (List.replicate 10 0) 7 3)
            (baseline (smooth_spectrum (List.replicate 10 0) 7 3)) 1)
          HELIUM_LINES 5) := by
  have hmono : ¬ List.Chain' (· < ·) ((1 : ℚ) :: List.replicate 9 0) := by
    intro hch
    rw [List.replicate_succ, List.chain'_cons] at hch
    exact absurd hch.1 (by norm_num)
  exact ⟨hmono, verdict_without_monotonicity _ _ _ hmono⟩

/-- C5: every `(center, snr)` pair returned by `find_lines` carries
`snr = residual[c + half_width] / noise[c]`, and by the padding offset the
numerator equals `|raw[c] - smoothed[c]|`; no further smoothing is applied
(the zero-noise case carries the division sentinel). -/
theorem snr_residual_over_noise (fluxes smoothed corrected : List ℚ) (t : ℚ)
    (c : ℕ) (sn : Option ℚ)
    (hsm : smoothed.length = fluxes.length) (hco : corrected.length = fluxes.length)
    (hmem : (c, sn) ∈ find_lines fluxes smoothed corrected t) :
    sn = snrAt (residualOf fluxes smoothed (lineHalfWidth fluxes.length))
        (noiseOf fluxes smoothed) (lineHalfWidth fluxes.length) c ∧
      sn = (if (noiseOf fluxes smoothed).getD c 0 = 0 then none
        else some (|fluxes.getD c 0 - smoothed.getD c 0| /
          (noiseOf fluxes smoothed).getD c 0)) := by
  obtain ⟨⟨s, e⟩, hse, i, hi, hc, hsn⟩ :=
    (mem_find_lines fluxes smoothed corrected t c sn).mp hmem
  subst hc
  refine ⟨hsn, ?_⟩
  obtain ⟨hslt, hele⟩ := scanComplexes_mem_bounds corrected _ t s e hse
  have hseg : ((corrected.drop s).take (e - s)).length = e - s := by
    rw [List.length_take, List.length_drop]
    omega
  have hcen := (mem_find_centers _ i).mp hi
  rw [hseg] at hcen
  rw [hco] at hele
  have hclt : s + i < fluxes.length := by omega
  have hn1 : 1 ≤ fluxes.length := by omega
  rw [hsn, snrAt]
  by_cases hz : (noiseOf fluxes smoothed).getD (s + i) 0 = 0
  · rw [if_pos hz, if_pos hz]
  · rw [if_neg hz, if_neg hz,
      residualOf_getD fluxes smoothed _ (s + i) hsm (lineHalfWidth_succ_le _ hn1) hclt]

/-- C6: at a resolved center with zero local noise the SNR is the non-fatal
division sentinel (numpy `inf`/`nan`, modelled `none`), and the matching
and verdict stage is insensitive to SNR values, so the pipeline still
completes. -/
theorem zero_noise_snr_sentinel (fluxes smoothed corrected wavs tbl : List ℚ)
    (t tol : ℚ) (c : ℕ) (sn : Option ℚ)
    (hmem : (c, sn) ∈ find_lines fluxes smoothed corrected t)
    (hz : (noiseOf fluxes smoothed).getD c 0 = 0) :
    sn = none ∧
      heVerdict wavs (find_lines fluxes smoothed corrected t) tbl tol =
        heVerdict wavs ((find_lines fluxes smoothed corrected t).map
          (fun p => (p.1, (none : Option ℚ)))) tbl tol := by
  constructor
  · obtain ⟨⟨s, e⟩, hse, i, hi, hc, hsn⟩ :=
      (mem_find_lines fluxes smoothed corrected t c sn).mp hmem
    subst hc
    rw [hsn, snrAt, if_pos hz]
  · rw [heVerdict, heVerdict, matchesOf_map_none]

/-- C10: every resolved center of `find_lines` lies strictly inside its
line complex (`start + 1 ≤ c ≤ end - 2`), and both SNR array accesses —
`residual[c + half_width]` and `noise[c]` — are in bounds. -/
theorem centers_within_complex_bounds (fluxes smoothed corrected : List ℚ) (t : ℚ)
    (c : ℕ) (sn : Option ℚ)
    (hsm : smoothed.length = fluxes.length) (hco : corrected.length = fluxes.length)
    (hn : 1 ≤ fluxes.length)
    (hmem : (c, sn) ∈ find_lines fluxes smoothed corrected t) :
    ∃ s e : ℕ, (s, e) ∈ scanComplexes corrected (noiseOf fluxes smoothed) t ∧
      s + 1 ≤ c ∧ c + 2 ≤ e ∧
      c + lineHalfWidth fluxes.length <
        (residualOf fluxes smoothed (lineHalfWidth fluxes.length)).length ∧
      c < (noiseOf fluxes smoothed).length := by
  obtain ⟨⟨s, e⟩, hse, i, hi, hc, hsn⟩ :=
    (mem_find_lines fluxes smoothed corrected t c sn).mp hmem
  subst hc
  obtain ⟨hslt, hele⟩ := scanComplexes_mem_bounds corrected _ t s e hse
  have hseg : ((corrected.drop s).take (e - s)).length = e - s := by
    rw [List.length_take, List.length_drop]
    omega
  have hcen := (mem_find_centers _ i).mp hi
  rw [hseg] at hcen
  rw [hco] at hele
  refine ⟨s, e, hse, by omega, by omega, ?_, ?_⟩
  · rw [residualOf_length fluxes smoothed _ hsm (lineHalfWidth_succ_le _ hn)]
    omega
  · rw [noiseOf_length fluxes smoothed hsm hn]
    omega

theorem noise_example :
    noiseOf (List.replicate 5 (0 : ℚ)) (List.replicate 5 0) = List.replicate 5 0 :=
  noiseOf_replicate_zero 5 (by norm_num)

theorem scan_example_mem :
    ((1 : ℕ), (4 : ℕ)) ∈ scanComplexes [(0 : ℚ), -5, -9, -5, 0]
      (noiseOf (List.replicate 5 0) (List.replicate 5 0)) 1 := by
  have hqt : ∀ i, ([(0 : ℚ), -5, -9, -5, 0]).getD i 0 < 0 →
      belowThreshold [(0 : ℚ), -5, -9, -5, 0]
        (noiseOf (List.replicate 5 0) (List.replicate 5 0)) 1 i = true := by
    intro i hlt
    rw [belowThreshold, decide_eq_true_eq, noise_example, getD_replicate_zero]
    simpa using hlt
  have hqf : ∀ i, ¬ ([(0 : ℚ), -5, -9, -5, 0]).getD i 0 < 0 →
      belowThreshold [(0 : ℚ), -5, -9, -5, 0]
        (noiseOf (List.replicate 5 0) (List.replicate 5 0)) 1 i = false := by
    intro i hge
    rw [belowThreshold, noise_example, getD_replicate_zero]
    exact decide_eq_false (by simpa using hge)
  rw [scanComplexes]
  refine (mem_scanLoopF _ _ _ 0 1 4 (by simp) (Or.inl rfl)).mpr
    ⟨by omega, by omega, by simp, ?_, ?_, ?_⟩
  · intro i h1 h4
    interval_cases i
    · exact hqt 1 (by rw [(rfl : ([(0 : ℚ), -5, -9, -5, 0]).getD 1 0 = -5)]; norm_num)
    · exact hqt 2 (by rw [(rfl : ([(0 : ℚ), -5, -9, -5, 0]).getD 2 0 = -9)]; norm_num)
    · exact hqt 3 (by rw [(rfl : ([(0 : ℚ), -5, -9, -5, 0]).getD 3 0 = -5)]; norm_num)
  · intro _
    exact hqf 4 (by rw [(rfl : ([(0 : ℚ), -5, -9, -5, 0]).getD 4 0 = 0)]; norm_num)
  · intro _
    exact hqf 0 (by rw [(rfl : ([(0 : ℚ), -5, -9, -5, 0]).getD 0 0 = 0)]; norm_num)

theorem centers_example_mem : (1 : ℕ) ∈ find_centers [(-5 : ℚ), -9, -5] := by
  rw [mem_find_centers]
  refine ⟨le_refl 1, by norm_num, ?_⟩
  have e1 : ([(-5 : ℚ), -9, -5]).getD (1 + 1) 0 = -5 := rfl
  have e2 : ([(-5 : ℚ), -9, -5]).getD 1 0 = -9 := rfl
  have e0 : ([(-5 : ℚ), -9, -5]).getD (1 - 1) 0 = -5 := rfl
  rw [e1, e2, e0]
  norm_num [sign]

theorem find_lines_example_mem :
    ((2 : ℕ), (none : Option ℚ)) ∈ find_lines (List.replicate 5 0)
      (List.replicate 5 0) [0, -5, -9, -5, 0] 1 := by
  rw [mem_find_lines]
  refine ⟨(1, 4), scan_example_mem, 1, centers_example_mem, rfl, ?_⟩
  simp only [snrAt]
  rw [noise_example, getD_replicate_zero, if_pos rfl]

/-- Witness for C5 at a concrete input with one resolved center. -/
theorem snr_residual_over_noise_witness :
    (none : Option ℚ) = snrAt
        (residualOf (List.replicate 5 0) (List.replicate 5 0)
          (lineHalfWidth (List.replicate 5 (0 : ℚ)).length))
        (noiseOf (List.replicate 5 0) (List.replicate 5 0))
        (lineHalfWidth (List.replicate 5 (0 : ℚ)).length) 2 ∧
      (none : Option ℚ) =
        (if (noiseOf (List.replicate 5 0) (List.replicate 5 0)).getD 2 0 = 0 then none
          else some (|(List.replicate 5 (0 : ℚ)).getD 2 0 -
              (List.replicate 5 (0 : ℚ)).getD 2 0| /
            (noiseOf (List.replicate 5 0) (List.replicate 5 0)).getD 2 0)) :=
  snr_residual_over_noise (List.replicate 5 0) (List.replicate 5 0)
    [0, -5, -9, -5, 0] 1 2 none rfl rfl find_lines_example_mem

/-- Witness for C6 at a concrete input whose noise is zero at the resolved
center. -/
theorem zero_noise_snr_sentinel_witness :
    (none : Option ℚ) = none ∧
      heVerdict [1, 2, 3, 4, 5]
          (find_lines (List.replicate 5 0) (List.replicate 5 0) [0, -5, -9, -5, 0] 1)
          HELIUM_LINES 5 =
        heVerdict [1, 2, 3, 4, 5]
          ((find_lines (List.replicate 5 0) (List.replicate 5 0)
              [0, -5, -9, -5, 0] 1).map (fun p => (p.1, (none : Option ℚ))))
          HELIUM_LINES 5 :=
  zero_noise_snr_sentinel (List.replicate 5 0) (List.replicate 5 0)
    [0, -5, -9, -5, 0] [1, 2, 3, 4, 5] HELIUM_LINES 1 5 2 none
    find_lines_example_mem (by rw [noise_example]; exact getD_replicate_zero 5 2)

/-- Witness for C10 at the same concrete input. -/
theorem centers_within_complex_bounds_witness :
    ∃ s e : ℕ, (s, e) ∈ scanComplexes [(0 : ℚ), -5, -9, -5, 0]
        (noiseOf (List.replicate 5 0) (List.replicate 5 0)) 1 ∧
      s + 1 ≤ 2 ∧ 2 + 2 ≤ e ∧
      2 + lineHalfWidth (List.replicate 5 (0 : ℚ)).length <
        (residualOf (List.replicate 5 0) (List.replicate 5 0)
          (lineHalfWidth (List.replicate 5 (0 : ℚ)).length)).length ∧
      2 < (noiseOf (List.replicate 5 0) (List.replicate 5 0)).length :=
  centers_within_complex_bounds (List.replicate 5 0) (List.replicate 5 0)
    [0, -5, -9, -5, 0] 1 2 none rfl rfl (by norm_num) find_lines_example_mem
